import Mathlib

/-!
Verification of the relaypoint API gateway core against its specification.

Go strings are modelled as lists of characters (`GoStr`), Go maps as
association lists, atomic integers as plain naturals threaded through a
state-passing style, and `float64` token counts as rationals.  The wrapping
64-bit counter of the round-robin balancer is modelled with an explicit
`% 2 ^ 64`.  Every definition follows the corresponding Go function from the
source tree; spec-side definitions (used to state refinement theorems) are
marked as such in their doc comments.
-/

namespace Relaypoint

/-- Go strings, modelled as lists of characters. -/
abbrev GoStr := List Char

/-- Model of Go `strings.Split(s, sep)` for a one-character separator:
splits on every occurrence of the separator; the empty string yields a
single empty component. -/
def goSplit (sep : Char) : GoStr → List GoStr
  | [] => [[]]
  | c :: cs =>
    if c = sep then [] :: goSplit sep cs
    else
      match goSplit sep cs with
      | [] => [[c]]
      | h :: t => (c :: h) :: t

/-- Model of Go `strings.Join(parts, sep)` for a one-character separator. -/
def goJoin (sep : Char) : List GoStr → GoStr
  | [] => []
  | [s] => s
  | s :: rest => s ++ sep :: goJoin sep rest

/-- Model of Go `strings.Trim(s, cut)` for a one-character cutset: removes
every leading and trailing occurrence of the character. -/
def goTrim (cut : Char) (s : GoStr) : GoStr :=
  ((s.dropWhile (· = cut)).reverse.dropWhile (· = cut)).reverse

/-- Model of Go `strings.ToLower`. -/
def goToLower (s : GoStr) : GoStr := s.map Char.toLower

/-- Model of Go `strings.ToUpper`. -/
def goToUpper (s : GoStr) : GoStr := s.map Char.toUpper

/-- Model of Go `strings.HasPrefix`. -/
def goHasPre (s pre : GoStr) : Bool := pre.isPrefixOf s

/-- Model of Go `strings.HasSuffix`. -/
def goHasSuf (s suf : GoStr) : Bool := suf.isSuffixOf s

/-- Model of Go `strings.TrimPrefix`. -/
def goDropPre (s pre : GoStr) : GoStr :=
  if pre.isPrefixOf s then s.drop pre.length else s

/-- Model of Go `strings.TrimSuffix`. -/
def goDropSuf (s suf : GoStr) : GoStr :=
  if suf.isSuffixOf s then s.take (s.length - suf.length) else s

/-- A compiled path segment (router.go `segment`). -/
structure Segment where
  value : GoStr
  isWild : Bool
  isParam : Bool
deriving DecidableEq, Repr

/-- Classification of one pattern token, following the `switch` in
`parseSegments`. -/
def segOfPart (part : GoStr) : Segment :=
  if part = ['*'] ∨ part = ['*', '*'] then ⟨part, true, false⟩
  else if goHasPre part [':'] then ⟨part.drop 1, false, true⟩
  else if goHasPre part ['\x7b'] ∧ goHasSuf part ['\x7d'] then
    ⟨(part.drop 1).take (part.length - 2), false, true⟩
  else ⟨goToLower part, false, false⟩

/-- Go `parseSegments`: trim slashes, split on `/`, classify each token. -/
def parseSegments (path : GoStr) : List Segment :=
  let p := goTrim '/' path
  if p = [] then []
  else (goSplit '/' p).map segOfPart

/-- Go `calculatePriority`: `10 * segment count`, then `+3` per literal,
`-2` per named parameter, `-5` per wildcard. -/
def calculatePriority (segments : List Segment) : Int :=
  segments.foldl
    (fun pr seg => if seg.isWild then pr - 5 else if seg.isParam then pr - 2 else pr + 3)
    (segments.length * 10)

/-- Go `hasWildcard`. -/
def hasWildcard (segments : List Segment) : Bool :=
  segments.any (·.isWild)

/-- Captured path parameters; models the Go `map[string]string` as an
association list with replace-on-insert semantics. -/
abbrev Params := List (GoStr × GoStr)

/-- Map assignment `m[k] = v`: replaces an existing binding or appends. -/
def paramInsert : Params → GoStr → GoStr → Params
  | [], k, v => [(k, v)]
  | (k', v') :: rest, k, v =>
    if k' = k then (k, v) :: rest else (k', v') :: paramInsert rest k v

/-- Per-route rate-limit override (config `rate_limit` block on a route). -/
structure RouteRateLimit where
  Enabled : Bool
  RequestsPerSecond : Int
  BurstSize : Int
deriving DecidableEq, Repr

/-- A compiled route (router.go `Route`). -/
structure Route where
  Name : GoStr
  Host : GoStr
  Path : GoStr
  Pattern : GoStr
  Methods : List GoStr
  Upstream : GoStr
  StripPath : Bool
  Headers : List (GoStr × GoStr)
  RateLimit : Option RouteRateLimit
  PathParams : Params
deriving DecidableEq, Repr

/-- The fields of `config.Route` consumed by `router.New`. -/
structure ConfigRoute where
  Name : GoStr
  Host : GoStr
  Path : GoStr
  Methods : List GoStr
  Upstream : GoStr
  StripPath : Bool
  Headers : List (GoStr × GoStr)
  RateLimit : Option RouteRateLimit
deriving DecidableEq, Repr

/-- A stored route entry (router.go `routeEntry`). -/
structure RouteEntry where
  route : Route
  segments : List Segment
  priority : Int
  isWildcard : Bool
deriving DecidableEq, Repr

/-- The router: the priority-sorted entry list. -/
structure Router where
  routes : List RouteEntry
deriving DecidableEq, Repr

/-- The method set built by `router.New`: empty method list means the
wildcard method `*`; otherwise methods are upper-cased.  The Go
`map[string]bool` is modelled by list membership. -/
def mkMethods (ms : List GoStr) : List GoStr :=
  if ms = [] then [['*']] else ms.map goToUpper

/-- One iteration of the construction loop of `router.New`. -/
def entryOfConfig (cfg : ConfigRoute) : RouteEntry :=
  let route : Route :=
    { Name := cfg.Name, Host := goToLower cfg.Host, Path := cfg.Path,
      Pattern := cfg.Path, Methods := mkMethods cfg.Methods,
      Upstream := cfg.Upstream, StripPath := cfg.StripPath,
      Headers := cfg.Headers, RateLimit := cfg.RateLimit, PathParams := [] }
  let segs := parseSegments cfg.Path
  { route := route, segments := segs,
    priority := calculatePriority segs, isWildcard := hasWildcard segs }

/-- Descending-priority order used by the `sort.Slice` call in `router.New`. -/
def entryLE (a b : RouteEntry) : Prop := b.priority ≤ a.priority

instance : DecidableRel entryLE := fun a b => Int.decLe b.priority a.priority

instance : IsTotal RouteEntry entryLE := ⟨fun a b => le_total b.priority a.priority⟩

instance : IsTrans RouteEntry entryLE := ⟨fun _ _ _ hab hbc => le_trans hbc hab⟩

/-- Go `router.New`: build entries, then sort by descending priority.
`sort.Slice` produces some permutation ordered by descending priority;
insertion sort is such a permutation. -/
def Router.New (cfgs : List ConfigRoute) : Router :=
  { routes := List.insertionSort entryLE (cfgs.map entryOfConfig) }

/-- Go `matchWildcardHost`: patterns of the form `*.suffix`. -/
def matchWildcardHost (pattern host : GoStr) : Bool :=
  if !goHasPre pattern ['*', '.'] then false
  else goHasSuf host (pattern.drop 1)

/-- The segment/path-component walk of Go `matchPath` (the `for si` loop),
with the accumulated parameter map threaded through. -/
def matchSegs : List Segment → List GoStr → Params → Option Params
  | [], parts, params => if parts = [] then some params else none
  | seg :: rest, parts, params =>
    if seg.isWild then
      if seg.value = ['*', '*'] then
        some (if parts = [] then params else paramInsert params ['*', '*'] (goJoin '/' parts))
      else
        match parts with
        | [] => none
        | _ :: ps => matchSegs rest ps params
    else if seg.isParam then
      match parts with
      | [] => none
      | p :: ps => matchSegs rest ps (paramInsert params seg.value p)
    else
      match parts with
      | [] => none
      | p :: ps => if goToLower p = seg.value then matchSegs rest ps params else none

/-- Go `matchPath`: trim the path, split into components, walk segments. -/
def matchPath (segments : List Segment) (path : GoStr) : Option Params :=
  let p := goTrim '/' path
  if segments = [] then (if p = [] then some [] else none)
  else
    let pathParts := if p = [] then [] else goSplit '/' p
    matchSegs segments pathParts []

/-- An incoming request: the fields of `*http.Request` read by `Match`. -/
structure HttpRequest where
  Host : GoStr
  Method : GoStr
  Path : GoStr
deriving DecidableEq, Repr

/-- Port stripping in `Match`: keep the host up to the first colon. -/
def cutPort (host : GoStr) : GoStr := host.takeWhile (· ≠ ':')

/-- The host test of the `Match` loop. -/
def RouteEntry.hostOK (e : RouteEntry) (host : GoStr) : Bool :=
  if e.route.Host ≠ [] ∧ e.route.Host ≠ host then matchWildcardHost e.route.Host host
  else true

/-- The method test of the `Match` loop. -/
def RouteEntry.methodOK (e : RouteEntry) (method : GoStr) : Bool :=
  e.route.Methods.contains ['*'] || e.route.Methods.contains method

/-- Whether an entry matches a (host, method, path) triple; the conjunction
of the three tests performed by the `Match` loop. -/
def RouteEntry.matchesReq (e : RouteEntry) (host method path : GoStr) : Bool :=
  e.hostOK host && e.methodOK method && (matchPath e.segments path).isSome

/-- The `Match` loop in state-passing style: the stored entry list is
threaded through so that the absence of mutation is a provable statement,
and on success a clone of the stored route carries the captured
parameters. -/
def matchEntries : List RouteEntry → GoStr → GoStr → GoStr → List RouteEntry × Option Route
  | [], _, _, _ => ([], none)
  | e :: rest, host, method, path =>
    if e.hostOK host && e.methodOK method then
      match matchPath e.segments path with
      | some params => (e :: rest, some { e.route with PathParams := params })
      | none =>
        let r := matchEntries rest host method path
        (e :: r.1, r.2)
    else
      let r := matchEntries rest host method path
      (e :: r.1, r.2)

/-- Go `Router.Match`, returning the (possibly updated) router together
with the result. -/
def Router.Match (r : Router) (req : HttpRequest) : Router × Option Route :=
  let host := cutPort (goToLower req.Host)
  let res := matchEntries r.routes host req.Method req.Path
  ({ routes := res.1 }, res.2)

/-- The result component of `Router.Match`. -/
def Router.MatchO (r : Router) (req : HttpRequest) : Option Route :=
  (r.Match req).2

/-- The prefix-building loop of Go `Route.StripPrefix`: starting from `/`,
append `value + "/"` for each leading literal segment. -/
def stripLoop : List Segment → GoStr → GoStr
  | [], pre => pre
  | seg :: rest, pre =>
    if seg.isWild || seg.isParam then pre
    else stripLoop rest (pre ++ seg.value ++ ['/'])

/-- Go `Route.StripPrefix`. -/
def Route.StripPrefix (r : Route) (path : GoStr) : GoStr :=
  if !r.StripPath then path
  else
    let segments := parseSegments r.Pattern
    let pre := stripLoop segments ['/']
    let pre' := goDropSuf pre ['/']
    if pre' = ['/'] then path
    else goDropPre path pre'

/-- Spec-side: the values of the longest leading run of literal segments of
a pattern (the run that the spec says is strippable). -/
def litValues (pat : GoStr) : List GoStr :=
  ((parseSegments pat).takeWhile (fun s => !s.isWild && !s.isParam)).map (·.value)

/-- Spec-side: the strippable prefix named by the spec, `"/" + a + "/" + b + ...`
over the leading literal segment values; empty when there is no leading
literal segment. -/
def litPre (pat : GoStr) : GoStr :=
  match litValues pat with
  | [] => []
  | ls => '/' :: goJoin '/' ls

/-- A token bucket (ratelimit.go `TokenBucket`); the `float64` token level
and timestamps are modelled as rationals. -/
structure TokenBucket where
  tokens : ℚ
  maxTokens : ℚ
  refillRate : ℚ
  lastRefill : ℚ
deriving DecidableEq

/-- Go `NewTokenBucket`, with the creation instant passed explicitly in
place of `time.Now()`. -/
def NewTokenBucket (rps burst : Int) (now : ℚ) : TokenBucket :=
  { tokens := burst, maxTokens := burst, refillRate := rps, lastRefill := now }

/-- Go `TokenBucket.refill`: lazy refill at the given instant, token level
clamped to capacity. -/
def TokenBucket.refill (tb : TokenBucket) (now : ℚ) : TokenBucket :=
  let elapsed := now - tb.lastRefill
  let tokens := tb.tokens + elapsed * tb.refillRate
  let tokens := if tokens > tb.maxTokens then tb.maxTokens else tokens
  { tb with tokens := tokens, lastRefill := now }

/-- Go `TokenBucket.Allow`: refill, then consume one token when at least
one is available. -/
def TokenBucket.Allow (tb : TokenBucket) (now : ℚ) : Bool × TokenBucket :=
  let tb' := tb.refill now
  if tb'.tokens ≥ 1 then (true, { tb' with tokens := tb'.tokens - 1 })
  else (false, tb')

/-- A whole sequence of `Allow` calls at the given instants, returning the
final bucket state. -/
def TokenBucket.allowSeq (tb : TokenBucket) : List ℚ → TokenBucket
  | [] => tb
  | t :: ts => ((tb.Allow t).2).allowSeq ts

/-- Generic association-list update with map-assignment semantics. -/
def assocSet : List (GoStr × TokenBucket) → GoStr → TokenBucket → List (GoStr × TokenBucket)
  | [], k, v => [(k, v)]
  | (k', v') :: rest, k, v =>
    if k' = k then (k, v) :: rest else (k', v') :: assocSet rest k v

/-- Association-list lookup, modelling the Go map read. -/
def assocGet (bs : List (GoStr × TokenBucket)) (k : GoStr) : Option TokenBucket :=
  (bs.find? (fun p => p.1 = k)).map (·.2)

/-- The rate-limiter registry (ratelimit.go `RateLimiter`); the cleanup
goroutine is out of scope for the claims. -/
structure RateLimiter where
  buckets : List (GoStr × TokenBucket)
  defaultRPS : Int
  defaultBurst : Int
deriving DecidableEq

/-- Go `RateLimiter.AllowWithLimits`: look the bucket up, creating it with
the given limits when absent, then run `Allow` on it.  The single `now`
stands for both the creation instant and the `Allow` instant (in the source
these are two adjacent `time.Now()` reads). -/
def RateLimiter.AllowWithLimits (rl : RateLimiter) (key : GoStr) (rps burst : Int)
    (now : ℚ) : Bool × RateLimiter :=
  let bucket :=
    match assocGet rl.buckets key with
    | some b => b
    | none => NewTokenBucket rps burst now
  let res := bucket.Allow now
  (res.1, { rl with buckets := assocSet rl.buckets key res.2 })

/-- Go `RateLimiter.Allow`: `AllowWithLimits` at the default limits. -/
def RateLimiter.Allow (rl : RateLimiter) (key : GoStr) (now : ℚ) : Bool × RateLimiter :=
  rl.AllowWithLimits key rl.defaultRPS rl.defaultBurst now

/-- The global `rate_limit` configuration block (config.RateLimit fields
read on the request path). -/
structure RateLimitConfig where
  Enabled : Bool
  PerIP : Bool
  PerAPIKey : Bool
deriving DecidableEq, Repr

/-- Outcome of `checkRateLimits`: admitted, or rejected at a tier with the
HTTP status and `Retry-After` header value written by the source. -/
inductive RLCheck where
  | ok : RLCheck
  | rejected (tier : GoStr) (status : ℕ) (retryAfter : GoStr) : RLCheck
deriving DecidableEq, Repr

/-- The third block of Go `Proxy.checkRateLimits` (the per-IP limit),
entered with the registry state `rl2` left by the earlier blocks. -/
def checkTier3 (cfg : RateLimitConfig) (rl2 : RateLimiter) (clientIP : GoStr)
    (t3 : ℚ) : RLCheck × RateLimiter :=
  if cfg.PerIP ∧ clientIP ≠ [] then
    let a := rl2.Allow ("ip:".toList ++ clientIP) t3
    if a.1 then (.ok, a.2) else (.rejected "ip".toList 429 "1".toList, a.2)
  else (.ok, rl2)

/-- The second block of Go `Proxy.checkRateLimits` (the API-key limit)
followed by the third, entered with the registry state `rl1` left by the
route-level block. -/
def checkTier2 (cfg : RateLimitConfig) (rl1 : RateLimiter) (clientIP apiKey : GoStr)
    (t2 t3 : ℚ) : RLCheck × RateLimiter :=
  let step2 : Option RLCheck × RateLimiter :=
    if cfg.PerAPIKey ∧ apiKey ≠ [] then
      let a := rl1.Allow ("apikey:".toList ++ apiKey) t2
      (if a.1 then none else some (.rejected "apikey".toList 429 "1".toList), a.2)
    else (none, rl1)
  match step2.1 with
  | some r => (r, step2.2)
  | none => checkTier3 cfg step2.2 clientIP t3

/-- Go `Proxy.checkRateLimits`: route-level limit, then API-key limit, then
per-IP limit, stopping at the first rejection.  The three potential `Allow`
instants are passed explicitly. -/
def checkRateLimits (cfg : RateLimitConfig) (rl : RateLimiter) (route : Route)
    (clientIP apiKey routeName : GoStr) (t1 t2 t3 : ℚ) : RLCheck × RateLimiter :=
  let step1 : Option RLCheck × RateLimiter :=
    match route.RateLimit with
    | some rrl =>
      if rrl.Enabled then
        let key := "route:".toList ++ routeName
        let a := rl.AllowWithLimits key rrl.RequestsPerSecond rrl.BurstSize t1
        (if a.1 then none else some (.rejected "route".toList 429 "1".toList), a.2)
      else (none, rl)
    | none => (none, rl)
  match step1.1 with
  | some r => (r, step1.2)
  | none => checkTier2 cfg step1.2 clientIP apiKey t2 t3

/-- Spec-side: one rate-limit tier as the spec describes it: its metrics
label, its bucket key, the limits used when the bucket must be created, and
the instant of its admission query. -/
structure SpecTier where
  tier : GoStr
  key : GoStr
  rps : Int
  burst : Int
  time : ℚ

/-- Spec-side: the tiers applicable to a request, in the fixed order the
spec prescribes: route-level (only when the route carries an enabled
limit), API-key (only when configured and a key is present), per-IP (only
when configured and the client IP is non-empty). -/
def specTiers (cfg : RateLimitConfig) (rl : RateLimiter) (route : Route)
    (clientIP apiKey routeName : GoStr) (t1 t2 t3 : ℚ) : List SpecTier :=
  (match route.RateLimit with
   | some rrl =>
     if rrl.Enabled then
       [⟨"route".toList, "route:".toList ++ routeName, rrl.RequestsPerSecond, rrl.BurstSize, t1⟩]
     else []
   | none => []) ++
  (if cfg.PerAPIKey ∧ apiKey ≠ [] then
    [⟨"apikey".toList, "apikey:".toList ++ apiKey, rl.defaultRPS, rl.defaultBurst, t2⟩]
   else []) ++
  (if cfg.PerIP ∧ clientIP ≠ [] then
    [⟨"ip".toList, "ip:".toList ++ clientIP, rl.defaultRPS, rl.defaultBurst, t3⟩]
   else [])

/-- Spec-side: evaluate tiers in order; the first tier whose admission
query rejects yields a 429 with `Retry-After: 1` and no later tier is
evaluated. -/
def runCascade (rl : RateLimiter) : List SpecTier → RLCheck × RateLimiter
  | [] => (.ok, rl)
  | t :: rest =>
    let a := rl.AllowWithLimits t.key t.rps t.burst t.time
    if a.1 then runCascade a.2 rest
    else (.rejected t.tier 429 "1".toList, a.2)

/-- A load-balancer target; the liveness flag and weight are the fields the
claims depend on (the URL and the in-flight connection counter play no role
in any claim and are omitted). -/
structure Target where
  Weight : Int
  Healthy : Bool
deriving DecidableEq, Repr

instance : Inhabited Target := ⟨⟨0, false⟩⟩

/-- The wrap modulus of the `atomic.Uint64` round-robin counter. -/
def UINT64 : ℕ := 2 ^ 64

/-- The round-robin balancer (loadbalancer.go `RoundRobin`): the target
slice plus the atomic counter value. -/
structure RoundRobin where
  targets : List Target
  current : ℕ
deriving DecidableEq, Repr

/-- Go `NewRoundRobin`: marks every target live; counter starts at zero. -/
def NewRoundRobin (targets : List Target) : RoundRobin :=
  { targets := targets.map (fun t => { t with Healthy := true }), current := 0 }

/-- Go `MarkHealthy` on a round-robin balancer, by target index. -/
def RoundRobin.MarkHealthy (rr : RoundRobin) (i : ℕ) (h : Bool) : RoundRobin :=
  { rr with targets := rr.targets.set i { rr.targets.getD i default with Healthy := h } }

/-- The probe loop of Go `RoundRobin.Next`: up to `n` increments of the
wrapping counter, returning the first live target hit.  The fuel equals the
loop bound `n` of the source. -/
def RoundRobin.nextLoop (targets : List Target) (n : ℕ) : ℕ → ℕ → Option ℕ × ℕ
  | 0, cur => (none, cur)
  | fuel + 1, cur =>
    let cur' := (cur + 1) % UINT64
    let idx := cur' % n
    match targets[idx]? with
    | some t => if t.Healthy then (some idx, cur') else RoundRobin.nextLoop targets n fuel cur'
    | none => (none, cur')

/-- Go `RoundRobin.Next`: empty slice yields no target; otherwise probe up
to `n` positions and fall back to the first target when every probe found a
non-live target. -/
def RoundRobin.Next (rr : RoundRobin) : Option ℕ × RoundRobin :=
  if rr.targets.length = 0 then (none, rr)
  else
    match RoundRobin.nextLoop rr.targets rr.targets.length rr.targets.length rr.current with
    | (some idx, cur') => (some idx, { rr with current := cur' })
    | (none, cur') => (some 0, { rr with current := cur' })

/-- Iterated `Next`: the list of selections of `m` consecutive calls. -/
def RoundRobin.run : RoundRobin → ℕ → List (Option ℕ) × RoundRobin
  | rr, 0 => ([], rr)
  | rr, m + 1 =>
    let s := rr.Next
    let rest := s.2.run m
    (s.1 :: rest.1, rest.2)

/-- Normalisation of a configured weight (both `proxy.New` and
`NewWeightedRoundRobin` replace a non-positive weight by 1). -/
def normWeight (w : Int) : ℕ := if w ≤ 0 then 1 else w.toNat

/-- Go `gcdSlice` over the (normalised, hence positive) weights; the inner
`gcd` loop is Euclid on naturals. -/
def gcdSlice (nums : List ℕ) : ℕ :=
  match nums with
  | [] => 1
  | n :: rest => rest.foldl Nat.gcd n

/-- The weighted round-robin balancer (loadbalancer.go
`WeightedRoundRobin`). -/
structure WeightedRoundRobin where
  targets : List Target
  weights : List ℕ
  currentWeight : Int
  maxWeight : ℕ
  gcd : ℕ
  current : Int
deriving DecidableEq, Repr

/-- Go `NewWeightedRoundRobin`: mark targets live, normalise weights,
record the maximum weight and the gcd, start at index -1 with current
weight 0. -/
def NewWeightedRoundRobin (targets : List Target) : WeightedRoundRobin :=
  let weights := targets.map (fun t => normWeight t.Weight)
  { targets := targets.map (fun t => { t with Healthy := true }),
    weights := weights,
    currentWeight := 0,
    maxWeight := weights.foldl max 0,
    gcd := gcdSlice weights,
    current := -1 }

/-- One-or-more iterations of the unbounded `for` loop of Go
`WeightedRoundRobin.Next`, with explicit fuel; `none` marks fuel
exhaustion and is never produced for the fuel bound used by `Next` on the
inputs the claims quantify over. -/
def WeightedRoundRobin.nextLoop (ts : List Target) (ws : List ℕ) (n : ℕ) (g mx : ℕ) :
    ℕ → Int → Int → Option ℕ × Int × Int
  | 0, cur, cw => (none, cur, cw)
  | fuel + 1, cur, cw =>
    let cur' := (cur + 1) % (n : Int)
    let cw' :=
      if cur' = 0 then (if cw - g ≤ 0 then (mx : Int) else cw - g) else cw
    let idx := cur'.toNat
    if (ws.getD idx 0 : Int) ≥ cw' ∧ (ts.getD idx default).Healthy then
      (some idx, cur', cw')
    else if cur' = 0 ∧ cw' = (mx : Int) then
      (some 0, cur', cw')
    else
      WeightedRoundRobin.nextLoop ts ws n g mx fuel cur' cw'

/-- A fuel bound sufficient for the loop of `Next` to return on every input
with positive normalised weights: a reset of `currentWeight` to the maximum
is reached within `n * (max/gcd + 2) + n` iterations, and the iteration
performing it always returns. -/
def WeightedRoundRobin.fuel (wrr : WeightedRoundRobin) : ℕ :=
  wrr.targets.length * (wrr.maxWeight / wrr.gcd + 2) + wrr.targets.length + 1

/-- Go `WeightedRoundRobin.Next`. -/
def WeightedRoundRobin.Next (wrr : WeightedRoundRobin) : Option ℕ × WeightedRoundRobin :=
  if wrr.targets.length = 0 then (none, wrr)
  else
    match WeightedRoundRobin.nextLoop wrr.targets wrr.weights wrr.targets.length
      wrr.gcd wrr.maxWeight wrr.fuel wrr.current wrr.currentWeight with
    | (res, cur', cw') => (res, { wrr with current := cur', currentWeight := cw' })

/-- Iterated weighted `Next`. -/
def WeightedRoundRobin.run : WeightedRoundRobin → ℕ → List (Option ℕ) × WeightedRoundRobin
  | wrr, 0 => ([], wrr)
  | wrr, m + 1 =>
    let s := wrr.Next
    let rest := s.2.run m
    (s.1 :: rest.1, rest.2)

/-- The balancer disciplines reachable in the claims (loadbalancer.New
dispatch; least-connections and random are touched by no claim). -/
inductive LB where
  | rr : RoundRobin → LB
  | wrr : WeightedRoundRobin → LB
deriving DecidableEq, Repr

/-- Dynamic dispatch of `Next` over the discipline. -/
def LB.Next : LB → Option ℕ × LB
  | .rr x => let (r, x') := x.Next; (r, .rr x')
  | .wrr x => let (r, x') := x.Next; (r, .wrr x')

/-- Lookup of an upstream balancer by name (the `p.upstreams[...]` map
read). -/
def lookupLB (ups : List (GoStr × LB)) (name : GoStr) : Option LB :=
  (ups.find? (fun p => p.1 = name)).map (·.2)

/-- Write-back of an upstream balancer state after a `Next` call. -/
def updateLB : List (GoStr × LB) → GoStr → LB → List (GoStr × LB)
  | [], _, _ => []
  | (k, v) :: rest, name, lb =>
    if k = name then (k, lb) :: rest else (k, v) :: updateLB rest name lb

/-- The outcome of the proxy request pipeline, carrying the error label
recorded in metrics where the source records one. -/
inductive ProxyOutcome where
  | notFound : ProxyOutcome
  | rateLimited (tier : GoStr) : ProxyOutcome
  | badGateway (label : GoStr) : ProxyOutcome
  | serviceUnavailable (label : GoStr) : ProxyOutcome
  | forwarded (targetIdx : ℕ) : ProxyOutcome
deriving DecidableEq, Repr

/-- The decision kernel of Go `Proxy.ServeHTTP` up to target selection:
route match (404 on miss), rate limiting when enabled, upstream lookup (502
`upstream_not_found` on miss), target selection (503 `no_healthy_upstream`
exactly when `Next` returned no target), else forwarding.  The client IP
and extracted API key are passed in for the locals of the source; metrics
and the actual forwarding are outside the claims. -/
def ServeHTTPCore (router : Router) (upstreams : List (GoStr × LB))
    (rlcfg : RateLimitConfig) (rl : RateLimiter) (req : HttpRequest)
    (clientIP apiKey : GoStr) (t1 t2 t3 : ℚ) :
    ProxyOutcome × List (GoStr × LB) × RateLimiter :=
  match router.MatchO req with
  | none => (.notFound, upstreams, rl)
  | some route =>
    let routeName := if route.Name = [] then route.Pattern else route.Name
    let (rlResult, rl') :=
      if rlcfg.Enabled then checkRateLimits rlcfg rl route clientIP apiKey routeName t1 t2 t3
      else (.ok, rl)
    match rlResult with
    | .rejected tier _ _ => (.rateLimited tier, upstreams, rl')
    | .ok =>
      match lookupLB upstreams route.Upstream with
      | none => (.badGateway "upstream_not_found".toList, upstreams, rl')
      | some lb =>
        let (target, lb') := lb.Next
        let upstreams' := updateLB upstreams route.Upstream lb'
        match target with
        | none => (.serviceUnavailable "no_healthy_upstream".toList, upstreams', rl')
        | some idx => (.forwarded idx, upstreams', rl')

/-- Fixture: a literal route `/a/b`. -/
def cfgLit : ConfigRoute := ⟨"r0".toList, [], "/a/b".toList, [], "up".toList, false, [], none⟩

/-- Fixture: a mixed route `/:x/b` (priority 21). -/
def cfgParamB : ConfigRoute := ⟨"r1".toList, [], "/:x/b".toList, [], "up".toList, false, [], none⟩

/-- Fixture: a parameter route `/:x/:y` (priority 16). -/
def cfgParams : ConfigRoute := ⟨"r2".toList, [], "/:x/:y".toList, [], "up".toList, false, [], none⟩

/-- Fixture: `GET /a/b` with no host. -/
def reqAB : HttpRequest := ⟨[], "GET".toList, "/a/b".toList⟩

/-- Fixture: the three-route router for the priority claims. -/
def demoRouter : Router := Router.New [cfgLit, cfgParamB, cfgParams]

/-- Fixture: a stripping route whose pattern is the single literal `/api`. -/
def c6route : Route :=
  { Name := [], Host := [], Path := "/api".toList, Pattern := "/api".toList,
    Methods := [['*']], Upstream := "up".toList, StripPath := true,
    Headers := [], RateLimit := none, PathParams := [] }

/-- Fixture: a three-target round-robin state just before counter
wraparound (reachable after `2^64 - 2` selections). -/
def wrapRR : RoundRobin :=
  { targets := [⟨1, true⟩, ⟨1, true⟩, ⟨1, true⟩], current := UINT64 - 2 }

/-- Fixture: a fresh weighted balancer over live targets of weights 1 and 2. -/
def c3wrr : WeightedRoundRobin := NewWeightedRoundRobin [⟨1, true⟩, ⟨2, true⟩]

/-- Fixture: a route `/api` to upstream `up` for the pipeline claims. -/
def c1cfg : ConfigRoute := ⟨"r".toList, [], "/api".toList, [], "up".toList, false, [], none⟩

/-- Fixture: the single-route router for the pipeline claims. -/
def c1router : Router := Router.New [c1cfg]

/-- Fixture: a one-target round-robin balancer whose only target has been
marked non-live by the health checker. -/
def c1lb : RoundRobin := (NewRoundRobin [⟨1, true⟩]).MarkHealthy 0 false

/-- Fixture: `GET /api` with no host. -/
def c1req : HttpRequest := ⟨[], "GET".toList, "/api".toList⟩

/-- Fixture: global rate limiting disabled. -/
def rlOff : RateLimitConfig := ⟨false, false, false⟩

/-- Fixture: an empty rate-limiter registry. -/
def rlEmpty : RateLimiter := ⟨[], 0, 0⟩

end Relaypoint

namespace Relaypoint

/-- C1: after a route match against an existing upstream whose single
target has its liveness flag false and with rate limiting disabled, the
pipeline does NOT answer 503 `no_healthy_upstream`: `RoundRobin.Next`
falls back to the first target instead of returning no target, `ServeHTTP`
only tests `Next` for nil, and so the request is forwarded to the non-live
target.  This contradicts the spec and the repository documentation, which
promise a 503 when all targets are down. -/
theorem c1_all_targets_down_not_503 :
    c1lb.targets.length = 1 ∧ (∀ t ∈ c1lb.targets, t.Healthy = false) ∧
    (c1router.MatchO c1req).isSome = true ∧
    (ServeHTTPCore c1router [("up".toList, .rr c1lb)] rlOff rlEmpty c1req [] [] 0 0 0).1
      = .forwarded 0 ∧
    (ServeHTTPCore c1router [("up".toList, .rr c1lb)] rlOff rlEmpty c1req [] [] 0 0 0).1
      ≠ .serviceUnavailable "no_healthy_upstream".toList := by
  decide

/-- C2 counterexample: in the three-route set `/a/b`, `/:x/b`, `/:x/:y`,
the routes `/:x/b` and `/:x/:y` both match `GET /a/b` and the first has
strictly greater priority (21 > 16), yet `Match` does not return `/:x/b`:
it returns the still higher-priority `/a/b`.  The claim as stated (return
the first of any matching pair ordered by priority) is therefore false. -/
theorem c2_priority_counterexample :
    entryOfConfig cfgParamB ∈ demoRouter.routes ∧
    entryOfConfig cfgParams ∈ demoRouter.routes ∧
    (entryOfConfig cfgParamB).matchesReq [] "GET".toList "/a/b".toList = true ∧
    (entryOfConfig cfgParams).matchesReq [] "GET".toList "/a/b".toList = true ∧
    (entryOfConfig cfgParams).priority < (entryOfConfig cfgParamB).priority ∧
    (demoRouter.MatchO reqAB).map Route.Pattern = some "/a/b".toList ∧
    "/a/b".toList ≠ (entryOfConfig cfgParamB).route.Pattern := by
  decide

/-- C3: the weighted balancer over live targets of weights (1, 2), run for
`sum(w) = 3` selections from its fresh state, selects target 0 twice and
target 1 once — not the claimed once and twice.  The premature fallback
`current == 0 && currentWeight == maxWeight` fires on every cycle wrap
whenever the first target does not carry the maximum weight, although live
targets remain unexamined. -/
theorem c3_weighted_distribution_violated :
    (∀ t ∈ c3wrr.targets, t.Healthy = true) ∧
    c3wrr.weights = [1, 2] ∧
    ((c3wrr.run (1 * (1 + 2))).1).count (some 0) = 2 ∧
    ((c3wrr.run (1 * (1 + 2))).1).count (some 1) = 1 := by
  decide

/-- C4 counterexample: over the live target list `[weight 0, weight 1]`,
the very first `Next` of the weighted balancer returns the zero-weight
target (its weight is normalised to 1 at construction), refuting "never
returns the zero-weight target". -/
theorem c4_zero_weight_selected_counterexample :
    (NewWeightedRoundRobin [⟨0, true⟩, ⟨1, true⟩]).Next.1 = some 0 := by
  decide

/-- C6 counterexample: for the stripping route with pattern `/api` and the
matching request path `/api`, `StripPrefix` returns the empty string, not
`/` as the claim states. -/
theorem c6_empty_remainder_counterexample :
    (matchPath (parseSegments c6route.Pattern) "/api".toList).isSome = true ∧
    c6route.StripPath = true ∧
    c6route.StripPrefix "/api".toList = [] ∧
    c6route.StripPrefix "/api".toList ≠ "/".toList := by
  decide

/-- C8 counterexample: a window of `k * N = 1 * 3` consecutive selections
taken while the 64-bit counter wraps (state reachable after `2^64 - 2`
calls) selects target 0 twice and target 2 not at all, refuting "each
target exactly k times" for windows spanning the wrap. -/
theorem c8_wraparound_counterexample :
    (∀ t ∈ wrapRR.targets, t.Healthy = true) ∧ wrapRR.targets.length = 3 ∧
    ((wrapRR.run (1 * 3)).1).count (some 0) = 2 ∧
    ((wrapRR.run (1 * 3)).1).count (some 2) = 0 := by
  decide

/-- The match loop threads the stored entry list through unchanged. -/
theorem matchEntries_fst (l : List RouteEntry) (host method path : GoStr) :
    (matchEntries l host method path).1 = l := by
  induction l with
  | nil => rfl
  | cons e rest ih =>
    unfold matchEntries
    by_cases h : (e.hostOK host && e.methodOK method) = true
    · simp only [h, if_true]
      cases hm : matchPath e.segments path with
      | some params => rfl
      | none => simpa using ih
    · simp only [Bool.not_eq_true] at h
      simp only [h, Bool.false_eq_true, if_false]
      simpa using ih

/-- A successful match result is a clone of some stored route, carrying the
captured parameters only on the clone. -/
theorem matchEntries_res (l : List RouteEntry) (host method path : GoStr) :
    (matchEntries l host method path).2 = none ∨
      ∃ e, e ∈ l ∧ ∃ ps, (matchEntries l host method path).2 =
        some { e.route with PathParams := ps } := by
  induction l with
  | nil => left; rfl
  | cons e rest ih =>
    unfold matchEntries
    by_cases h : (e.hostOK host && e.methodOK method) = true
    · simp only [h, if_true]
      cases hm : matchPath e.segments path with
      | some params =>
        right
        exact ⟨e, List.mem_cons_self e rest, params, rfl⟩
      | none =>
        rcases ih with h0 | ⟨e', he', ps, hps⟩
        · left; simpa using h0
        · right; exact ⟨e', List.mem_cons_of_mem e he', ps, by simpa using hps⟩
    · simp only [Bool.not_eq_true] at h
      simp only [h, Bool.false_eq_true, if_false]
      rcases ih with h0 | ⟨e', he', ps, hps⟩
      · left; simpa using h0
      · right; exact ⟨e', List.mem_cons_of_mem e he', ps, by simpa using hps⟩

/-- C9: `Match` never mutates the router: the stored entries (with their
segments, priorities and order) are returned unchanged, and a successful
result is a per-call clone of a stored route with the captured parameters
attached only to the clone. -/
theorem c9_match_immutable (r : Router) (req : HttpRequest) :
    (r.Match req).1 = r ∧
      ((r.Match req).2 = none ∨
        ∃ e, e ∈ r.routes ∧ ∃ ps, (r.Match req).2 = some { e.route with PathParams := ps }) := by
  constructor
  · show Router.mk (matchEntries r.routes (cutPort (goToLower req.Host)) req.Method req.Path).1 = r
    rw [matchEntries_fst]
  · exact matchEntries_res r.routes (cutPort (goToLower req.Host)) req.Method req.Path

/-- Normalised weights are positive. -/
theorem normWeight_pos (w : Int) : 0 < normWeight w := by
  unfold normWeight
  split
  · norm_num
  · omega

/-- A gcd fold starting from a positive accumulator stays positive. -/
theorem foldl_gcd_pos (l : List ℕ) (a : ℕ) (ha : 0 < a) : 0 < l.foldl Nat.gcd a := by
  induction l generalizing a with
  | nil => exact ha
  | cons b bs ih => exact ih _ (Nat.gcd_pos_of_pos_left b ha)

/-- The stored gcd of a freshly constructed weighted balancer is positive. -/
theorem wrr_gcd_pos (ts : List Target) : 0 < (NewWeightedRoundRobin ts).gcd := by
  cases ts with
  | nil => norm_num [NewWeightedRoundRobin, gcdSlice]
  | cons t rest =>
    simpa [NewWeightedRoundRobin, gcdSlice] using
      foldl_gcd_pos (rest.map fun t => normWeight t.Weight) _ (normWeight_pos t.Weight)

/-- From the initial loop state (index -1, current weight 0), the first
iteration of the weighted selection loop returns index 0 whenever the first
normalised weight is 1 and the first target is live: either the maximum
weight is 1 and the selection test fires, or the premature fallback fires. -/
theorem nextLoop_first (ts : List Target) (ws : List ℕ) (n g mx : ℕ) (fuel : ℕ)
    (hf : fuel ≠ 0) (hg : 0 < g) (hw0 : ws.getD 0 0 = 1)
    (hh : (ts.getD 0 default).Healthy = true) :
    (WeightedRoundRobin.nextLoop ts ws n g mx fuel (-1) 0).1 = some 0 := by
  obtain ⟨f, rfl⟩ := Nat.exists_eq_succ_of_ne_zero hf
  unfold WeightedRoundRobin.nextLoop
  have hcur : ((-1 : Int) + 1) % (n : Int) = 0 := by norm_num
  have hcw : ((0 : Int) - (g : Int) ≤ 0) := by
    have : (0 : Int) ≤ (g : Int) := Int.ofNat_nonneg g
    omega
  simp only [hcur, if_pos rfl, if_pos hcw, Int.toNat_zero, hw0, hh, and_true, if_true, true_and]
  by_cases hmx : ((1 : ℕ) : Int) ≥ (mx : Int)
  · rw [if_pos hmx]
  · rw [if_neg hmx]

/-- C4 (amended): a target configured with non-positive weight is given
effective weight 1 by `NewWeightedRoundRobin` and participates in the
rotation like a weight-1 target; in particular, when the first target has
weight 0 the very first `Next` call returns it. -/
theorem c4_zero_weight_normalized :
    (∀ (ts : List Target) (i : ℕ) (t : Target), ts[i]? = some t → t.Weight ≤ 0 →
        (NewWeightedRoundRobin ts).weights[i]? = some 1) ∧
    (∀ (t0 : Target) (rest : List Target), t0.Weight ≤ 0 →
        (NewWeightedRoundRobin (t0 :: rest)).Next.1 = some 0) := by
  constructor
  · intro ts i t hi hw
    simp [NewWeightedRoundRobin, List.getElem?_map, hi, normWeight, hw]
  · intro t0 rest hw
    have hg : 0 < (NewWeightedRoundRobin (t0 :: rest)).gcd := wrr_gcd_pos _
    unfold WeightedRoundRobin.Next
    rw [if_neg (by simp [NewWeightedRoundRobin])]
    refine nextLoop_first _ _ _ _ _ _ ?_ ?_ ?_ ?_
    · simp [WeightedRoundRobin.fuel]
    · exact hg
    · simp [NewWeightedRoundRobin, normWeight, hw]
    · simp [NewWeightedRoundRobin]

/-- Witness for C4: the list `[weight 0, weight 3]`, both live. -/
theorem c4_zero_weight_normalized_witness :
    ([Target.mk 0 true, Target.mk 3 true] : List Target)[0]? = some (Target.mk 0 true) ∧
    (Target.mk 0 true).Weight ≤ 0 ∧
    (NewWeightedRoundRobin [Target.mk 0 true, Target.mk 3 true]).weights[0]? = some 1 ∧
    (NewWeightedRoundRobin [Target.mk 0 true, Target.mk 3 true]).Next.1 = some 0 :=
  ⟨by decide, by decide,
   c4_zero_weight_normalized.1 [Target.mk 0 true, Target.mk 3 true] 0 (Target.mk 0 true)
     (by decide) (by decide),
   c4_zero_weight_normalized.2 (Target.mk 0 true) [Target.mk 3 true] (by decide)⟩

/-- A chain over an appended list restricts to a chain over the first part. -/
theorem chain_of_append {α : Type} (r : α → α → Prop) (a : α) (l1 l2 : List α)
    (h : List.Chain r a (l1 ++ l2)) : List.Chain r a l1 := by
  induction l1 generalizing a with
  | nil => exact List.Chain.nil
  | cons b bs ih =>
    cases h with
    | cons hab h' => exact List.Chain.cons hab (ih _ h')

/-- A single `Allow` call preserves `0 ≤ tokens ≤ capacity` and fixes the
last-refill stamp to the call instant; capacity and rate never change. -/
theorem Allow_props (tb : TokenBucket) (now : ℚ)
    (h0 : 0 ≤ tb.tokens) (h1 : tb.tokens ≤ tb.maxTokens)
    (hr : 0 ≤ tb.refillRate) (ht : tb.lastRefill ≤ now) :
    0 ≤ (tb.Allow now).2.tokens ∧ (tb.Allow now).2.tokens ≤ (tb.Allow now).2.maxTokens ∧
    (tb.Allow now).2.maxTokens = tb.maxTokens ∧
    (tb.Allow now).2.refillRate = tb.refillRate ∧
    (tb.Allow now).2.lastRefill = now := by
  have he : 0 ≤ (now - tb.lastRefill) * tb.refillRate :=
    mul_nonneg (by linarith) hr
  simp only [TokenBucket.Allow, TokenBucket.refill]
  split_ifs with hA hB hC <;>
    exact ⟨by dsimp only; linarith, by dsimp only; linarith, rfl, rfl, rfl⟩

/-- The invariant `0 ≤ tokens ≤ capacity` is preserved by any sequence of
`Allow` calls at non-decreasing instants. -/
theorem allowSeq_inv (ts : List ℚ) (tb : TokenBucket)
    (h0 : 0 ≤ tb.tokens) (h1 : tb.tokens ≤ tb.maxTokens) (hr : 0 ≤ tb.refillRate)
    (hc : List.Chain (· ≤ ·) tb.lastRefill ts) :
    0 ≤ (tb.allowSeq ts).tokens ∧ (tb.allowSeq ts).tokens ≤ (tb.allowSeq ts).maxTokens := by
  induction ts generalizing tb with
  | nil => exact ⟨h0, h1⟩
  | cons t ts' ih =>
    cases hc with
    | cons hle hc' =>
      obtain ⟨i0, i1, hmax, hrate, hlast⟩ := Allow_props tb t h0 h1 hr hle
      have hchain' : List.Chain (· ≤ ·) ((tb.Allow t).2).lastRefill ts' := by
        rw [hlast]; exact hc'
      have := ih (tb.Allow t).2 i0 i1 (hrate ▸ hr) hchain'
      simpa [TokenBucket.allowSeq] using this

/-- C7: for a bucket created from non-negative `rps` and `burst` and any
sequence of `Allow` calls at non-decreasing instants (the per-bucket lock
serialises the calls; Go reads time from a monotonic clock), the token
level satisfies `0 ≤ tokens ≤ capacity` after every prefix of the
sequence. -/
theorem c7_token_bucket_invariant (rps burst : Int) (t0 : ℚ) (pre suf : List ℚ)
    (hrps : 0 ≤ rps) (hburst : 0 ≤ burst)
    (hchain : List.Chain (· ≤ ·) t0 (pre ++ suf)) :
    0 ≤ ((NewTokenBucket rps burst t0).allowSeq pre).tokens ∧
    ((NewTokenBucket rps burst t0).allowSeq pre).tokens ≤
      ((NewTokenBucket rps burst t0).allowSeq pre).maxTokens := by
  have hpre : List.Chain (· ≤ ·) t0 pre := chain_of_append _ _ _ _ hchain
  refine allowSeq_inv pre (NewTokenBucket rps burst t0) ?_ ?_ ?_ ?_
  · show (0 : ℚ) ≤ (burst : ℚ)
    exact_mod_cast hburst
  · exact le_refl _
  · show (0 : ℚ) ≤ (rps : ℚ)
    exact_mod_cast hrps
  · exact hpre

/-- The per-IP block agrees with the spec cascade over its tier list; the
recorded limits come from the registry defaults, which every `Allow` call
preserves. -/
theorem checkTier3_cascade (cfg : RateLimitConfig) (rl base : RateLimiter) (clientIP : GoStr)
    (t3 : ℚ) (hR : rl.defaultRPS = base.defaultRPS) (hB : rl.defaultBurst = base.defaultBurst) :
    checkTier3 cfg rl clientIP t3 =
      runCascade rl (if cfg.PerIP = true ∧ clientIP ≠ [] then
        [⟨"ip".toList, "ip:".toList ++ clientIP, base.defaultRPS, base.defaultBurst, t3⟩]
      else []) := by
  unfold checkTier3 RateLimiter.Allow
  by_cases h3 : cfg.PerIP = true ∧ clientIP ≠ []
  · simp only [if_pos h3, runCascade, hR, hB]
  · simp only [if_neg h3, runCascade]

/-- The API-key block followed by the per-IP block agrees with the spec
cascade over their tier lists. -/
theorem checkTier2_cascade (cfg : RateLimitConfig) (rl base : RateLimiter)
    (clientIP apiKey : GoStr) (t2 t3 : ℚ)
    (hR : rl.defaultRPS = base.defaultRPS) (hB : rl.defaultBurst = base.defaultBurst) :
    checkTier2 cfg rl clientIP apiKey t2 t3 =
      runCascade rl
        ((if cfg.PerAPIKey = true ∧ apiKey ≠ [] then
            [⟨"apikey".toList, "apikey:".toList ++ apiKey, base.defaultRPS, base.defaultBurst, t2⟩]
          else []) ++
         (if cfg.PerIP = true ∧ clientIP ≠ [] then
            [⟨"ip".toList, "ip:".toList ++ clientIP, base.defaultRPS, base.defaultBurst, t3⟩]
          else [])) := by
  unfold checkTier2 RateLimiter.Allow
  by_cases h2 : cfg.PerAPIKey = true ∧ apiKey ≠ []
  · simp only [if_pos h2, hR, hB, List.cons_append, List.nil_append]
    cases ha2 : (rl.AllowWithLimits ("apikey:".toList ++ apiKey) base.defaultRPS base.defaultBurst t2).1
    · simp only [ha2, Bool.false_eq_true, if_false, runCascade]
    · simp only [ha2, if_true, runCascade]
      exact checkTier3_cascade cfg _ base clientIP t3 hR hB
  · simp only [if_neg h2, List.nil_append]
    exact checkTier3_cascade cfg rl base clientIP t3 hR hB

/-- C5: `checkRateLimits` is exactly the spec cascade: the applicable tiers
are evaluated in the fixed order route-level (key `route:<name>`, only when
the route carries an enabled limit), API-key (key `apikey:<key>`, only when
configured and a key is present), per-IP (key `ip:<addr>`, only when
configured and the IP is non-empty); the first tier whose bucket rejects
yields status 429 with `Retry-After: 1` and its tier label, leaving the
registry exactly as of that tier — no later tier is evaluated. -/
theorem c5_rate_limit_cascade (cfg : RateLimitConfig) (rl : RateLimiter) (route : Route)
    (clientIP apiKey routeName : GoStr) (t1 t2 t3 : ℚ) :
    checkRateLimits cfg rl route clientIP apiKey routeName t1 t2 t3 =
      runCascade rl (specTiers cfg rl route clientIP apiKey routeName t1 t2 t3) := by
  unfold checkRateLimits specTiers
  rcases hRL : route.RateLimit with _ | rrl
  · simp only [List.nil_append]
    exact checkTier2_cascade cfg rl rl clientIP apiKey t2 t3 rfl rfl
  · by_cases hE : rrl.Enabled = true
    · simp only [hE, if_true, List.cons_append, List.nil_append]
      cases ha1 : (rl.AllowWithLimits ("route:".toList ++ routeName)
          rrl.RequestsPerSecond rrl.BurstSize t1).1
      · simp only [ha1, Bool.false_eq_true, if_false, runCascade]
      · simp only [ha1, if_true, runCascade]
        exact checkTier2_cascade cfg _ rl clientIP apiKey t2 t3 rfl rfl
    · simp only [Bool.not_eq_true] at hE
      simp only [hE, Bool.false_eq_true, if_false, List.nil_append]
      exact checkTier2_cascade cfg rl rl clientIP apiKey t2 t3 rfl rfl

/-- On a priority-sorted entry list, the first matching entry is returned
and its priority dominates the priority of every matching entry. -/
theorem matchEntries_first_max (l : List RouteEntry) (host method path : GoStr)
    (hsorted : l.Pairwise entryLE) (e1 : RouteEntry) (h1 : e1 ∈ l)
    (hm1 : e1.matchesReq host method path = true) :
    ∃ e, e ∈ l ∧ e.matchesReq host method path = true ∧ e1.priority ≤ e.priority ∧
      ∃ ps, (matchEntries l host method path).2 = some { e.route with PathParams := ps } := by
  induction l with
  | nil => cases h1
  | cons x rest ih =>
    rw [List.pairwise_cons] at hsorted
    obtain ⟨hx, hrest⟩ := hsorted
    by_cases hcond : (x.hostOK host && x.methodOK method) = true
    · cases hm : matchPath x.segments path with
      | some params =>
        refine ⟨x, List.mem_cons_self x rest, ?_, ?_, params, ?_⟩
        · simp [RouteEntry.matchesReq, hm]
          exact Bool.and_eq_true_iff.mp hcond
        · rcases List.mem_cons.mp h1 with h | h
          · exact h ▸ le_refl _
          · exact hx e1 h
        · unfold matchEntries
          simp [hcond, hm]
      | none =>
        have hne : e1 ≠ x := by
          intro h
          rw [h] at hm1
          simp [RouteEntry.matchesReq, hm] at hm1
        have h1' : e1 ∈ rest := by
          rcases List.mem_cons.mp h1 with h | h
          · exact absurd h hne
          · exact h
        obtain ⟨e, he, hme, hpr, ps, hres⟩ := ih hrest h1'
        refine ⟨e, List.mem_cons_of_mem x he, hme, hpr, ps, ?_⟩
        unfold matchEntries
        simp [hcond, hm, hres]
    · have hne : e1 ≠ x := by
        intro h
        rw [h] at hm1
        have := (Bool.and_eq_true_iff.mp hm1).1
        exact hcond this
      have h1' : e1 ∈ rest := by
        rcases List.mem_cons.mp h1 with h | h
        · exact absurd h hne
        · exact h
      obtain ⟨e, he, hme, hpr, ps, hres⟩ := ih hrest h1'
      refine ⟨e, List.mem_cons_of_mem x he, hme, hpr, ps, ?_⟩
      unfold matchEntries
      simp only [Bool.not_eq_true] at hcond
      simp [hcond, hres]

/-- C2 (amended): when two routes of a router both match a request and the
first has strictly greater priority, `Match` returns a matching route of
maximal priority — one at least as high as the first and strictly above the
second; it never returns the lower-priority route, though it need not
return the first of the pair when a third matching route ranks higher. -/
theorem c2_match_returns_max_priority (cfgs : List ConfigRoute) (req : HttpRequest)
    (e1 e2 : RouteEntry)
    (h1 : e1 ∈ (Router.New cfgs).routes) (h2 : e2 ∈ (Router.New cfgs).routes)
    (hm1 : e1.matchesReq (cutPort (goToLower req.Host)) req.Method req.Path = true)
    (hm2 : e2.matchesReq (cutPort (goToLower req.Host)) req.Method req.Path = true)
    (hlt : e2.priority < e1.priority) :
    ∃ e, e ∈ (Router.New cfgs).routes ∧
      e.matchesReq (cutPort (goToLower req.Host)) req.Method req.Path = true ∧
      e1.priority ≤ e.priority ∧ e2.priority < e.priority ∧
      ∃ ps, (Router.New cfgs).MatchO req = some { e.route with PathParams := ps } := by
  have hsorted : (Router.New cfgs).routes.Pairwise entryLE :=
    List.sorted_insertionSort entryLE _
  obtain ⟨e, he, hme, hpr, ps, hres⟩ :=
    matchEntries_first_max (Router.New cfgs).routes (cutPort (goToLower req.Host))
      req.Method req.Path hsorted e1 h1 hm1
  exact ⟨e, he, hme, hpr, lt_of_lt_of_le hlt hpr, ps, hres⟩

/-- Witness for C2: the three-route set with `e1 = /:x/b`, `e2 = /:x/:y`
and the request `GET /a/b`. -/
theorem c2_match_returns_max_priority_witness :
    ∃ e, e ∈ demoRouter.routes ∧
      e.matchesReq (cutPort (goToLower reqAB.Host)) reqAB.Method reqAB.Path = true ∧
      (entryOfConfig cfgParamB).priority ≤ e.priority ∧
      (entryOfConfig cfgParams).priority < e.priority ∧
      ∃ ps, demoRouter.MatchO reqAB = some { e.route with PathParams := ps } :=
  c2_match_returns_max_priority [cfgLit, cfgParamB, cfgParams] reqAB
    (entryOfConfig cfgParamB) (entryOfConfig cfgParams)
    (by decide) (by decide) (by decide) (by decide) (by decide)

/-- Splitting never yields the empty list of components. -/
theorem goSplit_ne_nil (s : GoStr) : goSplit '/' s ≠ [] := by
  cases s with
  | nil => simp [goSplit]
  | cons c cs =>
    unfold goSplit
    by_cases h : c = '/'
    · simp [h]
    · simp only [if_neg h]
      cases goSplit '/' cs <;> simp

/-- Splitting a separator-free string yields that string alone. -/
theorem goSplit_no_sep (s : GoStr) (h : '/' ∉ s) : goSplit '/' s = [s] := by
  induction s with
  | nil => rfl
  | cons c cs ih =>
    have hc : ¬(c = '/') := fun hc => h (hc ▸ List.mem_cons_self c cs)
    have hcs : '/' ∉ cs := fun hm => h (List.mem_cons_of_mem c hm)
    unfold goSplit
    rw [if_neg hc, ih hcs]

/-- Splitting peels one separator-free component off the front. -/
theorem goSplit_append_sep (s t : GoStr) (h : '/' ∉ s) :
    goSplit '/' (s ++ '/' :: t) = s :: goSplit '/' t := by
  induction s with
  | nil => simp [goSplit]
  | cons c cs ih =>
    have hc : ¬(c = '/') := fun hc => h (hc ▸ List.mem_cons_self c cs)
    have hcs : '/' ∉ cs := fun hm => h (List.mem_cons_of_mem c hm)
    rw [List.cons_append]
    simp only [goSplit, if_neg hc, ih hcs]

/-- Splitting inverts joining for separator-free components. -/
theorem goJoin_split (parts : List GoStr) (hne : parts ≠ [])
    (hsep : ∀ p ∈ parts, '/' ∉ p) :
    goSplit '/' (goJoin '/' parts) = parts := by
  induction parts with
  | nil => exact absurd rfl hne
  | cons p rest ih =>
    cases rest with
    | nil =>
      show goSplit '/' (goJoin '/' [p]) = [p]
      exact goSplit_no_sep p (hsep p (List.mem_cons_self p []))
    | cons q qs =>
      show goSplit '/' (p ++ '/' :: goJoin '/' (q :: qs)) = p :: q :: qs
      rw [goSplit_append_sep p _ (hsep p (List.mem_cons_self p _))]
      rw [ih (by simp) (fun x hx => hsep x (List.mem_cons_of_mem p hx))]

/-- A join whose first component is non-empty starts with its first
character. -/
theorem goJoin_head (c : Char) (cs : GoStr) (rest : List GoStr) :
    ∃ t, goJoin '/' ((c :: cs) :: rest) = c :: t := by
  cases rest with
  | nil => exact ⟨cs, rfl⟩
  | cons r rs => exact ⟨cs ++ '/' :: goJoin '/' (r :: rs), rfl⟩

/-- A join ends with its last component. -/
theorem goJoin_concat (xs : List GoStr) (q : GoStr) :
    ∃ pre, goJoin '/' (xs ++ [q]) = pre ++ q := by
  induction xs with
  | nil => exact ⟨[], rfl⟩
  | cons x xs ih =>
    cases xs with
    | nil => exact ⟨x ++ ['/'], by simp [goJoin]⟩
    | cons y ys =>
      obtain ⟨pre, hp⟩ := ih
      refine ⟨x ++ '/' :: pre, ?_⟩
      show x ++ '/' :: goJoin '/' ((y :: ys) ++ [q]) = (x ++ '/' :: pre) ++ q
      rw [hp]
      simp

/-- Trimming slashes around a well-formed joined pattern removes exactly
the leading slash. -/
theorem goTrim_join (parts : List GoStr) (hne : parts ≠ [])
    (hwf : ∀ p ∈ parts, p ≠ [] ∧ '/' ∉ p) :
    goTrim '/' ('/' :: goJoin '/' parts) = goJoin '/' parts := by
  obtain ⟨p0, rest, rfl⟩ : ∃ p0 rest, parts = p0 :: rest := by
    cases parts with
    | nil => exact absurd rfl hne
    | cons a b => exact ⟨a, b, rfl⟩
  obtain ⟨c, cs, rfl⟩ : ∃ c cs, p0 = c :: cs := by
    cases hp0 : p0 with
    | nil => exact absurd hp0 (hwf p0 (List.mem_cons_self _ _)).1
    | cons a b => exact ⟨a, b, rfl⟩
  have hc : ¬(c = '/') := by
    intro h
    exact (hwf (c :: cs) (List.mem_cons_self _ _)).2 (h ▸ List.mem_cons_self c cs)
  obtain ⟨t, ht⟩ := goJoin_head c cs rest
  obtain ⟨ys, q, hyq⟩ : ∃ ys q, (c :: cs) :: rest = ys ++ [q] := by
    rcases List.eq_nil_or_concat ((c :: cs) :: rest) with h | ⟨L, b, h⟩
    · cases h
    · rw [List.concat_eq_append] at h
      exact ⟨L, b, h⟩
  obtain ⟨e, es, hq⟩ : ∃ e es, q.reverse = e :: es := by
    have hqne : q ≠ [] := (hwf q (hyq ▸ (List.mem_append_right ys (List.mem_cons_self q [])))).1
    cases hqr : q.reverse with
    | nil => exact absurd (by simpa using congrArg List.reverse hqr) hqne
    | cons a b => exact ⟨a, b, rfl⟩
  have he : ¬(e = '/') := by
    intro h
    have : e ∈ q := by
      rw [← List.mem_reverse, hq]
      exact List.mem_cons_self e es
    exact (hwf q (hyq ▸ (List.mem_append_right ys (List.mem_cons_self q [])))).2 (h ▸ this)
  obtain ⟨pre, hpre⟩ := goJoin_concat ys q
  unfold goTrim
  rw [List.dropWhile_cons]
  rw [if_pos (by simp)]
  rw [ht, List.dropWhile_cons, if_neg (by simpa using hc)]
  have hrev : (c :: t).reverse = e :: (es ++ (pre.reverse)) := by
    have : (c :: t) = pre ++ q := by rw [← ht, hyq, hpre]
    rw [this, List.reverse_append, hq]
    simp
  rw [hrev, List.dropWhile_cons, if_neg (by simpa using he), ← hrev]
  simp

/-- Pattern compilation is total and per-token on well-formed patterns:
`/a/b/...` compiles to the token-wise classification, so no pattern — in
particular none with `**` before the final segment — is rejected. -/
theorem parse_roundtrip (parts : List GoStr) (hne : parts ≠ [])
    (hwf : ∀ p ∈ parts, p ≠ [] ∧ '/' ∉ p) :
    parseSegments ('/' :: goJoin '/' parts) = parts.map segOfPart := by
  unfold parseSegments
  rw [goTrim_join parts hne hwf]
  obtain ⟨p0, rest, rfl⟩ : ∃ p0 rest, parts = p0 :: rest := by
    cases parts with
    | nil => exact absurd rfl hne
    | cons a b => exact ⟨a, b, rfl⟩
  obtain ⟨c, cs, rfl⟩ : ∃ c cs, p0 = c :: cs := by
    cases hp0 : p0 with
    | nil => exact absurd hp0 (hwf p0 (List.mem_cons_self _ _)).1
    | cons a b => exact ⟨a, b, rfl⟩
  obtain ⟨t, ht⟩ := goJoin_head c cs rest
  rw [ht, if_neg (by simp), ← ht]
  rw [goJoin_split _ (by simp) (fun p hp => (hwf p hp).2)]

/-- Reaching the rest-wildcard segment succeeds immediately, for every list
of later segments: the remaining components, when any, are bound joined
under the key `**`. -/
theorem matchSegs_restWild (post : List Segment) (parts : List GoStr) (params : Params) :
    matchSegs (⟨['*', '*'], true, false⟩ :: post) parts params =
      some (if parts = [] then params else paramInsert params ['*', '*'] (goJoin '/' parts)) := by
  simp [matchSegs]

/-- C10: compilation never rejects a pattern with `**` before the final
segment — every well-formed pattern compiles token-wise, `**` becoming the
rest-wildcard segment — and path matching succeeds as soon as the
rest-wildcard is reached: every later segment is ignored and the remaining
components are bound, joined with slashes, under the key `**` (when no
components remain the key is left absent, which a Go map read cannot
distinguish from the empty string). -/
theorem c10_rest_wildcard :
    (∀ (parts : List GoStr), parts ≠ [] → (∀ p ∈ parts, p ≠ [] ∧ '/' ∉ p) →
        parseSegments ('/' :: goJoin '/' parts) = parts.map segOfPart) ∧
    segOfPart ['*', '*'] = ⟨['*', '*'], true, false⟩ ∧
    (∀ (post : List Segment) (parts : List GoStr) (params : Params),
        matchSegs (⟨['*', '*'], true, false⟩ :: post) parts params =
          some (if parts = [] then params else paramInsert params ['*', '*'] (goJoin '/' parts))) :=
  ⟨parse_roundtrip, by decide, matchSegs_restWild⟩

/-- Witness for C10: the pattern `/api/**/x` (a `**` before the final
segment) and the remaining components `a/b`. -/
theorem c10_rest_wildcard_witness :
    (["api".toList, "**".toList, "x".toList] ≠ ([] : List GoStr)) ∧
    (∀ p ∈ [("api".toList : GoStr), "**".toList, "x".toList], p ≠ [] ∧ '/' ∉ p) ∧
    parseSegments ('/' :: goJoin '/' ["api".toList, "**".toList, "x".toList]) =
      ["api".toList, "**".toList, "x".toList].map segOfPart ∧
    matchSegs (⟨['*', '*'], true, false⟩ :: [⟨"x".toList, false, false⟩])
        ["a".toList, "b".toList] [] =
      some (paramInsert [] ['*', '*'] (goJoin '/' ["a".toList, "b".toList])) := by
  refine ⟨by decide, by decide, c10_rest_wildcard.1 _ (by decide) (by decide), ?_⟩
  rw [c10_rest_wildcard.2.2]
  decide

/-- Witness for C7: `rps = 1`, `burst = 2`, calls at instants 0 and 1. -/
theorem c7_token_bucket_invariant_witness :
    (0 : Int) ≤ 1 ∧ (0 : Int) ≤ 2 ∧ List.Chain (· ≤ ·) (0 : ℚ) ([0, 1] ++ []) ∧
    (0 ≤ ((NewTokenBucket 1 2 0).allowSeq [0, 1]).tokens ∧
      ((NewTokenBucket 1 2 0).allowSeq [0, 1]).tokens ≤
        ((NewTokenBucket 1 2 0).allowSeq [0, 1]).maxTokens) := by
  have hch : List.Chain (· ≤ ·) (0 : ℚ) ([0, 1] ++ []) :=
    List.Chain.cons (by norm_num) (List.Chain.cons (by norm_num) List.Chain.nil)
  exact ⟨by norm_num, by norm_num, hch,
    c7_token_bucket_invariant 1 2 0 [0, 1] [] (by norm_num) (by norm_num) hch⟩

/-- The head surviving a dropWhile does not satisfy the predicate. -/
theorem dropWhile_head_not (l : List Char) (h : Char) (t : List Char)
    (he : l.dropWhile (· = '/') = h :: t) : ¬(h = '/') := by
  induction l with
  | nil => cases he
  | cons c cs ih =>
    rw [List.dropWhile_cons] at he
    by_cases hc : c = '/'
    · rw [if_pos (by simpa using hc)] at he
      exact ih he
    · rw [if_neg (by simpa using hc)] at he
      cases he
      exact hc

/-- A non-empty trim result does not start with the trimmed character. -/
theorem goTrim_first_ne (s : GoStr) (h : Char) (t : List Char)
    (he : goTrim '/' s = h :: t) : ¬(h = '/') := by
  unfold goTrim at he
  have hsuf : ((s.dropWhile (· = '/')).reverse.dropWhile (· = '/')) <:+
      (s.dropWhile (· = '/')).reverse := List.dropWhile_suffix _
  have hpre : ((s.dropWhile (· = '/')).reverse.dropWhile (· = '/')).reverse <+:
      (s.dropWhile (· = '/')) := by
    rw [← List.reverse_suffix, List.reverse_reverse]
    exact hsuf
  rw [he] at hpre
  obtain ⟨u, hu⟩ := hpre
  exact dropWhile_head_not s h (t ++ u) (by rw [← hu]; simp)

/-- A non-empty takeWhile result heads the original list and satisfies the
predicate. -/
theorem takeWhile_cons_inv {α : Type} (p : α → Bool) (l : List α) (a : α) (t : List α)
    (h : l.takeWhile p = a :: t) : (∃ t', l = a :: t') ∧ p a = true := by
  cases l with
  | nil => cases h
  | cons b bs =>
    rw [List.takeWhile_cons] at h
    by_cases hb : p b = true
    · rw [if_pos hb] at h
      cases h
      exact ⟨⟨bs, rfl⟩, hb⟩
    · rw [if_neg hb] at h
      cases h

/-- Let-free view of `parseSegments`. -/
theorem parseSegments_eq (pat : GoStr) :
    parseSegments pat =
      if goTrim '/' pat = [] then []
      else (goSplit '/' (goTrim '/' pat)).map segOfPart := rfl

/-- When the leading run of literal segments is non-empty, its first value
is a non-empty string: the trimmed pattern cannot start with a slash, so
the first token is non-empty, and the literal branch keeps its length. -/
theorem parse_first_lit_ne (pat : GoStr) (l0 : GoStr) (ls : List GoStr)
    (h : litValues pat = l0 :: ls) : l0 ≠ [] := by
  unfold litValues at h
  cases htw : (parseSegments pat).takeWhile (fun s => !s.isWild && !s.isParam) with
  | nil => rw [htw] at h; cases h
  | cons s0 ss =>
    rw [htw, List.map_cons] at h
    injection h with h1 h2
    obtain ⟨⟨ss', hps⟩, hpred⟩ := takeWhile_cons_inv _ _ _ _ htw
    cases hpt : goTrim '/' pat with
    | nil =>
      rw [parseSegments_eq, hpt, if_pos rfl] at hps
      cases hps
    | cons hch tch =>
      have hne : ¬(hch = '/') := goTrim_first_ne pat hch tch hpt
      rw [parseSegments_eq, hpt, if_neg (by simp)] at hps
      have hshape : ∃ w rest0, goSplit '/' (hch :: tch) = (hch :: w) :: rest0 := by
        unfold goSplit
        rw [if_neg hne]
        cases goSplit '/' tch with
        | nil => exact ⟨[], [], rfl⟩
        | cons x xs => exact ⟨x, xs, rfl⟩
      obtain ⟨w, rest0, hgs⟩ := hshape
      rw [hgs, List.map_cons] at hps
      injection hps with hs0 hrest
      rw [← hs0] at hpred h1
      intro hl0
      rw [hl0] at h1
      unfold segOfPart at h1 hpred
      split_ifs at h1 hpred <;> simp_all [goToLower]



/-- Closed form of the prefix-building loop: it appends `value + "/"` for
exactly the longest leading run of literal segments. -/
theorem stripLoop_closed (segs : List Segment) (pre : GoStr) :
    stripLoop segs pre =
      pre ++ List.flatten (((segs.takeWhile fun s => !s.isWild && !s.isParam).map
        (·.value)).map (fun v => v ++ ['/'])) := by
  induction segs generalizing pre with
  | nil => simp [stripLoop]
  | cons s rest ih =>
    unfold stripLoop
    by_cases hc : (s.isWild || s.isParam) = true
    · rw [if_pos hc]
      have hp : (!s.isWild && !s.isParam) = false := by
        cases hw : s.isWild <;> cases hpm : s.isParam <;> simp_all
      rw [List.takeWhile_cons, hp]
      simp
    · simp only [Bool.not_eq_true] at hc
      rw [if_neg (by simp [hc])]
      have hp : (!s.isWild && !s.isParam) = true := by
        cases hw : s.isWild <;> cases hpm : s.isParam <;> simp_all
      rw [List.takeWhile_cons, hp]
      rw [ih]
      simp

/-- Concatenating slash-terminated components equals the slash-join plus a
trailing slash. -/
theorem flatten_map_join (ls : List GoStr) (h : ls ≠ []) :
    List.flatten (ls.map (fun v => v ++ ['/'])) = goJoin '/' ls ++ ['/'] := by
  induction ls with
  | nil => exact absurd rfl h
  | cons l rest ih =>
    cases rest with
    | nil => simp [goJoin]
    | cons l' rest' =>
      show (l ++ ['/']) ++ List.flatten ((l' :: rest').map (fun v => v ++ ['/'])) =
        (l ++ '/' :: goJoin '/' (l' :: rest')) ++ ['/']
      rw [ih (by simp)]
      simp

/-- Dropping the trailing-slash suffix. -/
theorem goDropSuf_slash (x : GoStr) : goDropSuf (x ++ ['/']) ['/'] = x := by
  unfold goDropSuf
  rw [if_pos (List.isSuffixOf_iff_suffix.mpr (List.suffix_append x ['/']))]
  simp

/-- C6 (amended): with `strip_path` true, `StripPrefix` computes the prefix
`"/" + a + "/" + b + ...` over the longest leading run of literal segment
values of the pattern (lowercased at compilation) and removes it from the
request path exactly when the path literally starts with it (`TrimPrefix`
semantics), returning the possibly empty remainder — the empty remainder is
returned as the empty string, not `/`; with no leading literal segment the
path is returned unchanged. -/
theorem c6_strip_characterization (r : Route) (path : GoStr) (hs : r.StripPath = true) :
    r.StripPrefix path = goDropPre path (litPre r.Pattern) := by
  unfold Route.StripPrefix
  rw [hs]
  simp only [Bool.not_true, Bool.false_eq_true, if_false]
  rw [stripLoop_closed]
  unfold litPre
  cases hlv : litValues r.Pattern with
  | nil =>
    have hlv' := hlv
    unfold litValues at hlv'
    rw [hlv']
    have hds : goDropSuf (['/'] ++ List.flatten (([] : List GoStr).map (fun v => v ++ ['/']))) ['/'] = [] := by
      simpa using goDropSuf_slash []
    rw [hds]
    rfl
  | cons l0 ls =>
    have hlv' := hlv
    unfold litValues at hlv'
    rw [hlv']
    rw [flatten_map_join _ (by simp)]
    have hassoc : (['/'] : GoStr) ++ (goJoin '/' (l0 :: ls) ++ ['/']) =
        ('/' :: goJoin '/' (l0 :: ls)) ++ ['/'] := by simp
    rw [hassoc, goDropSuf_slash]
    have hjne : goJoin '/' (l0 :: ls) ≠ [] := by
      cases ls with
      | nil => exact parse_first_lit_ne r.Pattern l0 [] hlv
      | cons l1 ls' => simp [goJoin]
    rw [if_neg (by simpa using hjne)]


/-- Witness for C6: the stripping route `/api` applied to `/api/users`. -/
theorem c6_strip_characterization_witness :
    c6route.StripPath = true ∧
    litPre c6route.Pattern = "/api".toList ∧
    c6route.StripPrefix "/api/users".toList =
      goDropPre "/api/users".toList (litPre c6route.Pattern) ∧
    goDropPre "/api/users".toList (litPre c6route.Pattern) = "/users".toList :=
  ⟨by decide, by decide,
   c6_strip_characterization c6route "/api/users".toList (by decide), by decide⟩

/-- countP respects pointwise-equal predicates on the list. -/
theorem countP_congr_mem {α : Type} (l : List α) (p q : α → Bool)
    (h : ∀ x ∈ l, p x = q x) : l.countP p = l.countP q := by
  induction l with
  | nil => rfl
  | cons x xs ih =>
    simp only [List.countP_cons, h x (List.mem_cons_self x xs),
      ih (fun a ha => h a (List.mem_cons_of_mem x ha))]

/-- Among any n consecutive integers, exactly one is congruent to t mod n. -/
theorem mod_block_count (n t a : ℕ) (hn : 0 < n) (ht : t < n) :
    (List.range n).countP (fun j => (a + j) % n == t) = 1 := by
  have hqle : a % n ≤ t + n := by
    have := Nat.mod_lt a hn
    omega
  have hrlt : (t + n - a % n) % n < n := Nat.mod_lt _ hn
  have key : (a + (t + n - a % n) % n) % n = t := by
    have h1 : Nat.ModEq n (a + (t + n - a % n) % n) (a % n + (t + n - a % n)) :=
      Nat.ModEq.add (Nat.mod_modEq a n).symm (Nat.mod_modEq (t + n - a % n) n)
    rw [Nat.add_sub_cancel' hqle] at h1
    have h2 : Nat.ModEq n (t + n) t := by
      show (t + n) % n = t % n
      exact Nat.add_mod_right t n
    have h3 : (a + (t + n - a % n) % n) % n = t % n := h1.trans h2
    rwa [Nat.mod_eq_of_lt ht] at h3
  have uniq : ∀ j, j < n → ((a + j) % n = t ↔ j = (t + n - a % n) % n) := by
    intro j hj
    constructor
    · intro hjt
      have hme : Nat.ModEq n (a + j) (a + (t + n - a % n) % n) := by
        show (a + j) % n = _ % n
        rw [hjt, key]
      have hjr : Nat.ModEq n j ((t + n - a % n) % n) := Nat.ModEq.add_left_cancel' a hme
      have hmods : j % n = (t + n - a % n) % n % n := hjr
      rwa [Nat.mod_eq_of_lt hj, Nat.mod_eq_of_lt hrlt] at hmods
    · rintro rfl
      exact key
  have hcongr : (List.range n).countP (fun j => (a + j) % n == t)
      = (List.range n).countP (fun j => j == (t + n - a % n) % n) := by
    apply countP_congr_mem
    intro j hj
    have hjlt : j < n := List.mem_range.mp hj
    by_cases hcase : (a + j) % n = t
    · have hj' := (uniq j hjlt).mp hcase
      subst hj'
      rw [key]
      simp
    · have hne' : ¬(j = (t + n - a % n) % n) := fun h => hcase ((uniq j hjlt).mpr h)
      simp [hcase, hne']
  rw [hcongr]
  show (List.range n).count ((t + n - a % n) % n) = 1
  exact List.count_eq_one_of_mem (List.nodup_range n) (List.mem_range.mpr hrlt)

/-- Among k*n consecutive integers, exactly k are congruent to t mod n. -/
theorem mod_count_mul (n t : ℕ) (hn : 0 < n) (ht : t < n) :
    ∀ (k a : ℕ), (List.range (k * n)).countP (fun j => (a + j) % n == t) = k := by
  intro k
  induction k with
  | zero => intro a; simp
  | succ k ih =>
    intro a
    have hsplit : (k + 1) * n = k * n + n := by ring
    rw [hsplit, List.range_add, List.countP_append, ih a, List.countP_map]
    have hcongr : (List.range n).countP ((fun j => (a + j) % n == t) ∘ (k * n + ·))
        = (List.range n).countP (fun j => (a + j) % n == t) := by
      apply countP_congr_mem
      intro j hj
      have harg : a + (k * n + j) = (a + j) + k * n := by ring
      simp only [Function.comp]
      rw [harg, Nat.add_mul_mod_self_right]
    rw [hcongr, mod_block_count n t a hn ht]

/-- With every target live, `Next` advances the wrapping counter once and
selects the target it indexes. -/
theorem rr_next_all_healthy (ts : List Target) (cur : ℕ)
    (hH : ∀ x ∈ ts, x.Healthy = true) (hne : ts ≠ []) :
    (RoundRobin.mk ts cur).Next =
      (some (((cur + 1) % UINT64) % ts.length), RoundRobin.mk ts ((cur + 1) % UINT64)) := by
  have hlen : ts.length ≠ 0 := by simpa using hne
  unfold RoundRobin.Next
  rw [if_neg hlen]
  obtain ⟨m, hm⟩ := Nat.exists_eq_succ_of_ne_zero hlen
  rw [hm]
  unfold RoundRobin.nextLoop
  dsimp only
  have hidx : ((cur + 1) % UINT64) % (m + 1) < m + 1 := Nat.mod_lt _ (Nat.succ_pos m)
  have hidx' : ((cur + 1) % UINT64) % (m + 1) < ts.length := hm ▸ hidx
  rw [List.getElem?_eq_getElem hidx']
  dsimp only
  rw [hH _ (List.getElem_mem hidx')]
  rfl

/-- One unfolding of the selection trace. -/
theorem rr_run_step (rr : RoundRobin) (m : ℕ) :
    (rr.run (m + 1)).1 = rr.Next.1 :: (rr.Next.2.run m).1 := rfl

/-- Closed form of the all-live selection trace: the j-th call (1-based)
selects index `((cur + j) % 2^64) % n`. -/
theorem rr_run_all_healthy (ts : List Target)
    (hH : ∀ x ∈ ts, x.Healthy = true) (hne : ts ≠ []) :
    ∀ (m cur : ℕ),
      ((RoundRobin.mk ts cur).run m).1 =
        (List.range m).map (fun j => some (((cur + 1 + j) % UINT64) % ts.length)) := by
  intro m
  induction m with
  | zero => intro cur; rfl
  | succ m ih =>
    intro cur
    rw [rr_run_step, rr_next_all_healthy ts cur hH hne]
    show some (((cur + 1) % UINT64) % ts.length) ::
        ((RoundRobin.mk ts ((cur + 1) % UINT64)).run m).1 = _
    rw [ih ((cur + 1) % UINT64)]
    rw [List.range_succ_eq_map]
    simp only [List.map_cons, List.map_map]
    refine congrArg₂ List.cons (by norm_num) ?_
    apply List.map_eq_map_iff.mpr
    intro j hj
    simp only [Function.comp]
    have h1 : (cur + 1) % UINT64 + 1 + j = (cur + 1) % UINT64 + (1 + j) := by omega
    rw [h1, Nat.mod_add_mod]
    have h2 : cur + 1 + (1 + j) = cur + 1 + Nat.succ j := by omega
    rw [h2]

/-- C8 (amended): with every target live and liveness unchanged, a window
of `k * N` consecutive `Next` calls starting at counter value `cur` returns
each target exactly `k` times provided the counter does not wrap inside the
window (`cur + k * N < 2^64`); from a fresh balancer this covers every
window with `k * N < 2^64`.  Windows spanning the 64-bit wrap of the atomic
counter can be uneven (see the counterexample). -/
theorem c8_round_robin_exact (ts : List Target) (cur k t : ℕ)
    (hH : ∀ x ∈ ts, x.Healthy = true) (hne : ts ≠ []) (ht : t < ts.length)
    (hnw : cur + k * ts.length < UINT64) :
    (((RoundRobin.mk ts cur).run (k * ts.length)).1).count (some t) = k := by
  have hn : 0 < ts.length := List.length_pos.mpr hne
  rw [rr_run_all_healthy ts hH hne (k * ts.length) cur]
  show ((List.range (k * ts.length)).map
      (fun j => some (((cur + 1 + j) % UINT64) % ts.length))).countP (· == some t) = k
  rw [List.countP_map]
  have hcongr : (List.range (k * ts.length)).countP
        ((fun x => x == some t) ∘ (fun j => some (((cur + 1 + j) % UINT64) % ts.length)))
      = (List.range (k * ts.length)).countP (fun j => ((cur + 1) + j) % ts.length == t) := by
    apply countP_congr_mem
    intro j hj
    have hjlt : j < k * ts.length := List.mem_range.mp hj
    have hlt : cur + 1 + j < UINT64 := by omega
    simp only [Function.comp]
    rw [Nat.mod_eq_of_lt hlt]
    rfl
  rw [hcongr]
  exact mod_count_mul ts.length t hn ht k (cur + 1)



/-- Witness for C8: three live targets, `cur = 0`, `k = 2`, target 1. -/
theorem c8_round_robin_exact_witness :
    (∀ x ∈ ([⟨1, true⟩, ⟨1, true⟩, ⟨1, true⟩] : List Target), x.Healthy = true) ∧
    ([⟨1, true⟩, ⟨1, true⟩, ⟨1, true⟩] : List Target) ≠ [] ∧
    1 < ([⟨1, true⟩, ⟨1, true⟩, ⟨1, true⟩] : List Target).length ∧
    0 + 2 * ([⟨1, true⟩, ⟨1, true⟩, ⟨1, true⟩] : List Target).length < UINT64 ∧
    (((RoundRobin.mk [⟨1, true⟩, ⟨1, true⟩, ⟨1, true⟩] 0).run
        (2 * ([⟨1, true⟩, ⟨1, true⟩, ⟨1, true⟩] : List Target).length)).1).count (some 1) = 2 :=
  ⟨by decide, by decide, by decide, by decide,
   c8_round_robin_exact [⟨1, true⟩, ⟨1, true⟩, ⟨1, true⟩] 0 2 1
     (by decide) (by decide) (by decide) (by decide)⟩

end Relaypoint
